import Mathlib

/-!
Verification of the docstring injector of `ai-docify`
(`src/ai_docify/tools.py`).

The Python strings manipulated by the injector are modelled as `List Char`
(`PyStr`), so that every operation of the source (`str.strip`,
`str.startswith`, `str.split`, `str.splitlines(keepends=True)`, slicing,
list insertion) is an executable Lean function on character lists.

The call `ast.parse` of the Python standard library is not part of this
repository; its outcome is passed to the embedded entry point as an
explicit `Option PyModule` argument: `none` models a `SyntaxError`, and
`some tree` carries the structural information the injector reads from the
tree (node kinds, names, column offsets, bodies, 1-based line spans), as
CPython produces it.  An uncaught exception of the injector itself
(only possible at `node.body[0]` on an empty body) is modelled by the
entry point returning `none`.
-/

namespace AiDocify

/-- Model of a Python `str`: a list of characters. -/
abbrev PyStr := List Char

/-- The characters for which Python's `str.isspace` holds (the set stripped
by `str.strip()`): ASCII whitespace, the C1 separators, NEL, NBSP and the
Unicode space separators. -/
def pySpaceChars : PyStr :=
  [' ', '\t', '\n', '\r', '\x0b', '\x0c', '\x1c', '\x1d', '\x1e', '\x1f',
   '\x85', '\xa0', '\u1680', '\u2000', '\u2001', '\u2002', '\u2003',
   '\u2004', '\u2005', '\u2006', '\u2007', '\u2008', '\u2009', '\u200a',
   '\u2028', '\u2029', '\u202f', '\u205f', '\u3000']

/-- Python whitespace test used by `str.strip` and the truthiness test
`if line.strip():`. -/
def isPySpace (c : Char) : Bool := pySpaceChars.contains c

/-- Python `str.strip()`: drop whitespace from both ends. -/
def pyStrip (l : PyStr) : PyStr :=
  ((l.dropWhile isPySpace).reverse.dropWhile isPySpace).reverse

/-- Python `str.startswith(p)` on character lists. -/
def hasPre : PyStr → PyStr → Bool
  | [], _ => true
  | _ :: _, [] => false
  | p :: ps, c :: cs => p == c && hasPre ps cs

/-- Python `str.endswith(p)` on character lists. -/
def hasSuf (p l : PyStr) : Bool := hasPre p.reverse l.reverse

/-- Python `str.split("\n")`: split on every newline; the empty string
splits to one empty field. -/
def splitNl : PyStr → List PyStr
  | [] => [[]]
  | c :: rest =>
    if c = '\n' then [] :: splitNl rest
    else
      match splitNl rest with
      | [] => [[c]]
      | l :: ls => (c :: l) :: ls

/-- Line-boundary characters of Python `str.splitlines` (besides the
two-character boundary `"\r\n"`, treated separately). -/
def isLineBoundary (c : Char) : Bool :=
  c = '\n' || c = '\r' || c = '\x0b' || c = '\x0c' || c = '\x1c' ||
  c = '\x1d' || c = '\x1e' || c = '\x85' || c = '\u2028' || c = '\u2029'

mutual
/-- Python `str.splitlines(keepends=True)`: cut after every line boundary,
keeping the boundary characters with their line. -/
def splitLinesKE : PyStr → List PyStr
  | [] => []
  | c :: rest => splitLinesCons c rest

/-- One step of `splitLinesKE`, with the first character exposed so that
the two-character boundary `"\r\n"` can be recognised. -/
def splitLinesCons (c : Char) : PyStr → List PyStr
  | [] => [[c]]
  | d :: rest2 =>
    if c = '\r' ∧ d = '\n' then ['\r', '\n'] :: splitLinesKE rest2
    else if isLineBoundary c then [c] :: splitLinesCons d rest2
    else
      match splitLinesCons d rest2 with
      | [] => [[c]]
      | l :: ls => (c :: l) :: ls
end

/-- Python `"".join(...)` on character lists. -/
def joinAll (ls : List PyStr) : PyStr := ls.foldr (· ++ ·) []

/-- The delimiter `\"\"\"` as a character list. -/
def dq3 : PyStr := ['"', '"', '"']

/-- The alternative delimiter of three single quotes as a character list. -/
def sq3 : PyStr := ['\'', '\'', '\'']

/-- Python slice `s[3:-3]` for a string of length at least 6. -/
def slice3 (l : PyStr) : PyStr := (l.drop 3).take (l.length - 6)

/-- The quote-stripping step of `clean_docstring` (tools.py lines 79-85):
if the trimmed text is wrapped in a matching triple-quote delimiter and has
length at least 6, strip one layer of the delimiter and re-trim. -/
def stripQuotes (cleaned : PyStr) : PyStr :=
  if hasPre dq3 cleaned && hasSuf dq3 cleaned && decide (6 ≤ cleaned.length) then
    pyStrip (slice3 cleaned)
  else if hasPre sq3 cleaned && hasSuf sq3 cleaned && decide (6 ≤ cleaned.length) then
    pyStrip (slice3 cleaned)
  else cleaned

/-- The emission loop of `clean_docstring` (tools.py lines 88-93): each
non-blank content line is emitted indented and newline-terminated, each
blank line as a bare newline. -/
def emitLines (indent : PyStr) : List PyStr → PyStr
  | [] => []
  | line :: rest =>
    (if pyStrip line ≠ [] then indent ++ line ++ ['\n'] else ['\n']) ++
      emitLines indent rest

/-- Embedding of `clean_docstring` (tools.py lines 52-95): trim the raw
text, strip one redundant layer of triple quotes if present, then emit an
opening delimiter line, the indented content lines and a closing delimiter
line. -/
def clean_docstring (raw_text : PyStr) (indent_level : Nat) : PyStr :=
  let indent : PyStr := List.replicate indent_level ' '
  let cleaned := stripQuotes (pyStrip raw_text)
  (indent ++ dq3 ++ ['\n']) ++ emitLines indent (splitNl cleaned) ++
    (indent ++ dq3 ++ ['\n'])

/-! The structural tree returned by `ast.parse`, restricted to the
information `insert_docstrings_to_source` reads: statement kinds,
function/class names, column offsets, statement bodies and 1-based line
spans.  Compound statements that are none of these (`if`, `while`, `try`,
assignments, ...) are modelled by `PyStmt.other`, which still carries the
child statements that `ast.walk` descends into. -/

/-- CPython node location: 1-based first and last line of the node. -/
structure PyPos where
  lineno : Nat
  end_lineno : Nat

/-- The value of a bare expression statement, as far as the injector
inspects it: an `ast.Constant` (whose payload may or may not be a string),
or any other expression. -/
inductive PyExpr where
  | constant (isStr : Bool)
  | other

/-- A Python statement as seen by the injector. -/
inductive PyStmt where
  | expr (value : PyExpr) (pos : PyPos)
  | functionDef (name : PyStr) (col_offset : Nat) (body : List PyStmt) (pos : PyPos)
  | asyncFunctionDef (name : PyStr) (col_offset : Nat) (body : List PyStmt) (pos : PyPos)
  | classDef (name : PyStr) (col_offset : Nat) (body : List PyStmt) (pos : PyPos)
  | other (body : List PyStmt) (pos : PyPos)

/-- The result of a successful `ast.parse`: the module body. -/
structure PyModule where
  body : List PyStmt

/-- The child statements a statement contributes to `ast.walk`'s queue. -/
def stmtChildren : PyStmt → List PyStmt
  | .expr _ _ => []
  | .functionDef _ _ b _ => b
  | .asyncFunctionDef _ _ b _ => b
  | .classDef _ _ b _ => b
  | .other b _ => b

/-- The location of a statement. -/
def stmtPos : PyStmt → PyPos
  | .expr _ p => p
  | .functionDef _ _ _ p => p
  | .asyncFunctionDef _ _ _ p => p
  | .classDef _ _ _ p => p
  | .other _ p => p

mutual
/-- Number of nodes of a statement subtree. -/
def stmtSize : PyStmt → Nat
  | .expr _ _ => 1
  | .functionDef _ _ b _ => 1 + stmtsSize b
  | .asyncFunctionDef _ _ b _ => 1 + stmtsSize b
  | .classDef _ _ b _ => 1 + stmtsSize b
  | .other b _ => 1 + stmtsSize b
/-- Number of nodes of a statement forest. -/
def stmtsSize : List PyStmt → Nat
  | [] => 0
  | s :: rest => stmtSize s + stmtsSize rest
end

/-- Breadth-first traversal with explicit fuel: pop the front of the
queue, emit it, push its children at the back.  The fuel only serves to
make the definition structurally recursive; `walk` supplies enough fuel
to exhaust any queue (`inTree_mem_walk` below proves no node is missed). -/
def walkFuel : Nat → List PyStmt → List PyStmt
  | 0, _ => []
  | _ + 1, [] => []
  | fuel + 1, s :: rest => s :: walkFuel fuel (rest ++ stmtChildren s)

/-- Embedding of `ast.walk` (restricted to statements): breadth-first
enumeration of the queue and all its descendants. -/
def walk (q : List PyStmt) : List PyStmt := walkFuel (stmtsSize q) q

/-- A docstring map: association list from symbol name to raw text
(Python `dict` with string keys). -/
abbrev DocMap := List (PyStr × PyStr)

/-- The reserved module-level key `"__module__"`. -/
def modKey : PyStr := "__module__".toList

/-- The 0-based line indices deleted for an existing docstring node
(tools.py `range(old_doc.lineno - 1, old_doc.end_lineno)`). -/
def delRange (p : PyPos) : List Nat :=
  List.range' (p.lineno - 1) (p.end_lineno - (p.lineno - 1))

/-- Embedding of the module-level branch of `insert_docstrings_to_source`
(tools.py lines 97-113): if the map has the key `"__module__"`, mark an
existing leading bare-constant expression statement of the module for
deletion and schedule the new module block at index 0 with indent 0. -/
def gatherModule (tree : PyModule) (docstring_map : DocMap) :
    List Nat × List (Nat × PyStr) :=
  match List.lookup modKey docstring_map with
  | none => ([], [])
  | some d =>
    let dels :=
      match tree.body with
      | PyStmt.expr (PyExpr.constant _) p :: _ => delRange p
      | _ => []
    (dels, [(0, clean_docstring d 0)])

/-- Embedding of one iteration of the function loop of
`insert_docstrings_to_source` (tools.py lines 116-143): only
`ast.FunctionDef` nodes whose name is a key of the map are processed; a
leading bare-constant expression statement is marked for deletion, and the
new block is scheduled at the 0-based line of the first body statement
with indent `col_offset + 4`.  A matched function with an empty body would
raise `IndexError` at `node.body[0]`, modelled by `none`. -/
def funcStep (docstring_map : DocMap)
    (acc : Option (List Nat × List (Nat × PyStr))) (node : PyStmt) :
    Option (List Nat × List (Nat × PyStr)) :=
  match acc with
  | none => none
  | some (dels, ins) =>
    match node with
    | PyStmt.functionDef name col body _ =>
      match List.lookup name docstring_map with
      | some d =>
        match body with
        | [] => none
        | first :: _ =>
          let dels' := dels ++
            (match first with
             | PyStmt.expr (PyExpr.constant _) p => delRange p
             | _ => [])
          some (dels', ins ++ [((stmtPos first).lineno - 1, clean_docstring d (col + 4))])
      | none => some (dels, ins)
    | _ => some (dels, ins)

/-- The edit plan of `insert_docstrings_to_source`: deletion indices and
insertions accumulated by the module branch and the `ast.walk` loop. -/
def collectPlan (tree : PyModule) (docstring_map : DocMap) :
    Option (List Nat × List (Nat × PyStr)) :=
  (walk tree.body).foldl (funcStep docstring_map)
    (some (gatherModule tree docstring_map))

/-- Python `list.insert(i, a)`: insert before position `i`, appending when
`i` is beyond the end. -/
def insertAt : List α → Nat → α → List α
  | l, 0, a => a :: l
  | [], _ + 1, a => [a]
  | x :: xs, i + 1, a => x :: insertAt xs i a

/-- One deletion of the buffer editor (tools.py lines 148-150): tombstone
the line at `idx` if it is within bounds, otherwise do nothing. -/
def delStep (buf : List (Option PyStr)) (idx : Nat) : List (Option PyStr) :=
  if idx < buf.length then buf.set idx none else buf

/-- One insertion of the buffer editor (tools.py lines 156-159): splice
the block in as a single entry if the index is within `[0, length]`. -/
def insStep (buf : List (Option PyStr)) (p : Nat × PyStr) : List (Option PyStr) :=
  if p.1 ≤ buf.length then insertAt buf p.1 (some p.2) else buf

/-- Stable insertion into a descending-sorted list: an element goes after
all entries with an index not smaller than its own. -/
def insertDesc (p : Nat × PyStr) : List (Nat × PyStr) → List (Nat × PyStr)
  | [] => [p]
  | q :: rest => if q.1 < p.1 then p :: q :: rest else q :: insertDesc p rest

/-- Embedding of `insertions.sort(key=lambda x: x[0], reverse=True)`:
stable sort by descending index. -/
def sortDesc (l : List (Nat × PyStr)) : List (Nat × PyStr) :=
  l.foldl (fun acc p => insertDesc p acc) []

/-- Final pass of the buffer editor (tools.py line 162): drop tombstones
and concatenate. -/
def joinOpt (buf : List (Option PyStr)) : PyStr := joinAll (buf.filterMap id)

/-- Embedding of `insert_docstrings_to_source` (tools.py lines 14-162).
`parsed` is the outcome of `ast.parse(original_source)`; a `SyntaxError`
(`parsed = none`) returns the original text.  The deletion indices are
applied as tombstones in accumulation order (Python iterates a set of
indices; the tombstone writes commute, so the order is immaterial),
insertions are applied bottom-to-top after the stable descending sort,
and the surviving lines are joined.  `none` models the `IndexError` of a
matched function with an empty body, which `ast.parse` never produces. -/
def insert_docstrings_to_source (parsed : Option PyModule)
    (original_source : PyStr) (docstring_map : DocMap) : Option PyStr :=
  let lines := splitLinesKE original_source
  match parsed with
  | none => some original_source
  | some tree =>
    match collectPlan tree docstring_map with
    | none => none
    | some (dels, ins) =>
      let buf0 : List (Option PyStr) := lines.map some
      let buf1 := dels.foldl delStep buf0
      let buf2 := (sortDesc ins).foldl insStep buf1
      some (joinOpt buf2)


/-! Auxiliary definitions used by the statements of the theorems below. -/

/-- A statement occurs somewhere in a statement forest: either directly,
or inside the children of some member. This is the set of nodes
`ast.walk` must visit. -/
inductive InTree (s : PyStmt) : List PyStmt → Prop where
  | here {q : List PyStmt} : s ∈ q → InTree s q
  | deeper {q : List PyStmt} (t : PyStmt) :
      t ∈ q → InTree s (stmtChildren t) → InTree s q

/-- The test `clean_docstring` applies to decide whether to strip one
layer of triple quotes: the text is wrapped in either matching delimiter
style and has length at least 6. -/
def isWrapped (s : PyStr) : Bool :=
  (hasPre dq3 s && hasSuf dq3 s && decide (6 ≤ s.length)) ||
  (hasPre sq3 s && hasSuf sq3 s && decide (6 ≤ s.length))

/-- The parse tree CPython produces for `"def f():\n    pass\n"`: one
synchronous function `f` at column 0, spanning lines 1-2, whose body is
the single `pass` statement on line 2. -/
def fPassTree : PyModule :=
  ⟨[PyStmt.functionDef ("f".toList) 0 [PyStmt.other [] ⟨2, 2⟩] ⟨1, 2⟩]⟩

/-- The parse tree CPython produces for `"class A:\n    pass\n"`: one
class `A` at column 0, spanning lines 1-2, whose body is the single
`pass` statement on line 2. -/
def classATree : PyModule :=
  ⟨[PyStmt.classDef ("A".toList) 0 [PyStmt.other [] ⟨2, 2⟩] ⟨1, 2⟩]⟩

/-- The parse tree CPython produces for
`"def f():\n    42\n    return 1\n"`: the first body statement of `f` is
a bare constant expression whose constant is the number `42` — not a
string. -/
def fNumTree : PyModule :=
  ⟨[PyStmt.functionDef ("f".toList) 0
      [PyStmt.expr (PyExpr.constant false) ⟨2, 2⟩, PyStmt.other [] ⟨3, 3⟩]
      ⟨1, 3⟩]⟩

end AiDocify

namespace AiDocify

/-! Claim theorems and supporting lemmas. -/

/-- C1: for a syntactically invalid input source (a `SyntaxError` from
`ast.parse`, modelled by `parsed = none`), `insert_docstrings_to_source`
returns the original input text unchanged, byte for byte, for every
docstring map, without raising. -/
theorem parse_failure_passthrough (original_source : PyStr)
    (docstring_map : DocMap) :
    insert_docstrings_to_source none original_source docstring_map =
      some original_source := rfl

/-- C4: on the source `"def f():\n    pass\n"` with the map
`{"__module__": "Hello."}`, the injector returns exactly the block
`'"""\nHello.\n"""\n'` immediately followed by the original two-line
function definition, with no other bytes added, lost or changed. -/
theorem module_insertion_example :
    insert_docstrings_to_source (some fPassTree)
      ("def f():\n    pass\n".toList)
      [("__module__".toList, "Hello.".toList)] =
    some (("\"\"\"\nHello.\n\"\"\"\n".toList) ++ ("def f():\n    pass\n".toList)) := by
  decide

/-- C6: evaluation of the injector at the failing input
`"def f():\n    42\n    return 1\n"` with map `{"f": "Doc."}`: the line
`"    42"` — a bare constant expression that is not a string literal — is
nevertheless deleted, because the code tests `ast.Constant` instead of a
string constant. The spec (and the code's own comment "Check if the
first statement in the function is a string") require the line to stay. -/
theorem bare_number_deleted_eval :
    insert_docstrings_to_source (some fNumTree)
      ("def f():\n    42\n    return 1\n".toList)
      [("f".toList, "Doc.".toList)] =
    some ("def f():\n    \"\"\"\n    Doc.\n    \"\"\"\n    return 1\n".toList) := by
  decide

/-- C2 counterexample: for the parseable source `"class A:\n    pass\n"`
and the map `{"A": "Doc."}` naming the class, the edit plan is empty and
the output equals the input — the class node receives no docstring,
contradicting the claim that class nodes are treated like function
nodes. -/
theorem classdef_not_modified :
    collectPlan classATree [("A".toList, "Doc.".toList)] = some ([], []) ∧
    insert_docstrings_to_source (some classATree)
      ("class A:\n    pass\n".toList) [("A".toList, "Doc.".toList)] =
    some ("class A:\n    pass\n".toList) := by
  constructor
  · decide
  · decide

/-- C5 counterexample: for the raw text `r = '"""x"""'` (already wrapped)
and indent 0, formatting the delimiter-wrapped text `'"""' + r + '"""'`
differs from formatting `r` itself: only one layer of quotes is ever
stripped, so the doubly wrapped input keeps an inner quoted layer. -/
theorem quote_strip_not_idem_on_wrapped :
    clean_docstring (dq3 ++ ("\"\"\"x\"\"\"".toList) ++ dq3) 0 ≠
    clean_docstring ("\"\"\"x\"\"\"".toList) 0 := by decide

/-- C7 counterexample: on empty raw text the formatted block is not just
the opening and closing delimiter lines: a blank line sits between them,
because splitting the empty content on newlines yields one empty field
which is emitted as a bare newline. -/
theorem empty_raw_block_has_blank_line :
    clean_docstring [] 0 = ("\"\"\"\n\n\"\"\"\n".toList) ∧
    clean_docstring [] 0 ≠ ("\"\"\"\n\"\"\"\n".toList) := by
  constructor
  · decide
  · decide


/-- Python's `"".join` of `splitlines(keepends=True)` output restores the
suffix handled by `splitLinesCons`, by strong induction on length. -/
theorem joinAll_splitLinesCons :
    ∀ (n : Nat) (c : Char) (rest : PyStr), rest.length ≤ n →
      joinAll (splitLinesCons c rest) = c :: rest := by
  intro n
  induction n with
  | zero =>
    intro c rest h
    have hr : rest = [] := List.eq_nil_of_length_eq_zero (Nat.le_zero.mp h)
    subst hr
    simp [splitLinesCons, joinAll]
  | succ n ih =>
    intro c rest h
    cases rest with
    | nil => simp [splitLinesCons, joinAll]
    | cons d rest2 =>
      have hlen : rest2.length ≤ n := by simp at h; omega
      have h2 : joinAll (splitLinesCons d rest2) = d :: rest2 := ih d rest2 hlen
      by_cases h1 : c = '\r' ∧ d = '\n'
      · obtain ⟨hc, hd⟩ := h1
        subst hc; subst hd
        have hr2 : joinAll (splitLinesKE rest2) = rest2 := by
          cases rest2 with
          | nil => rfl
          | cons e rest3 =>
            have he := ih e rest3 (by simp at hlen; omega)
            simpa [splitLinesKE] using he
        have hu : joinAll (splitLinesCons '\r' ('\n' :: rest2)) =
            '\r' :: '\n' :: joinAll (splitLinesKE rest2) := by
          simp [splitLinesCons, joinAll]
        rw [hu, hr2]
      · by_cases hb : isLineBoundary c = true
        · have hu : joinAll (splitLinesCons c (d :: rest2)) =
              c :: joinAll (splitLinesCons d rest2) := by
            simp [splitLinesCons, h1, hb, joinAll]
          rw [hu, h2]
        · cases hsc : splitLinesCons d rest2 with
          | nil => rw [hsc] at h2; simp [joinAll] at h2
          | cons l ls =>
            rw [hsc] at h2
            simp only [joinAll, List.foldr] at h2 ⊢
            simp [splitLinesCons, h1, hb, hsc, List.cons_append, h2]

/-- Joining the lines of `splitlines(keepends=True)` restores the input
exactly, for every input. -/
theorem joinAll_splitLinesKE (s : PyStr) : joinAll (splitLinesKE s) = s := by
  cases s with
  | nil => rfl
  | cons c rest =>
    simpa [splitLinesKE] using joinAll_splitLinesCons rest.length c rest le_rfl

/-- With an empty docstring map the function loop leaves the accumulator
untouched: no name can be found in the map. -/
theorem funcStep_empty_map (acc : Option (List Nat × List (Nat × PyStr)))
    (node : PyStmt) : funcStep [] acc node = acc := by
  match acc with
  | none => rfl
  | some (dels, ins) => cases node <;> simp [funcStep, List.lookup]

/-- Folding the function loop over any node list with an empty map is the
identity on the accumulator. -/
theorem foldl_funcStep_empty_map (l : List PyStmt)
    (acc : Option (List Nat × List (Nat × PyStr))) :
    l.foldl (funcStep []) acc = acc := by
  induction l generalizing acc with
  | nil => rfl
  | cons s l ih => rw [List.foldl_cons, funcStep_empty_map, ih]

/-- Dropping tombstones from a buffer that contains none and joining is
the plain join. -/
theorem joinOpt_map_some (ls : List PyStr) : joinOpt (ls.map some) = joinAll ls := by
  induction ls with
  | nil => rfl
  | cons l ls ih =>
    simp only [joinOpt, List.map_cons, List.filterMap_cons] at ih ⊢
    simp [joinAll, ih]

/-- C3: for every parseable source and the empty docstring map the edit
plan is empty (no deletions, no insertions), the injector returns the
source unchanged, and splitting the source into kept-end lines and
rejoining reproduces it exactly. -/
theorem empty_map_identity (tree : PyModule) (source : PyStr) :
    collectPlan tree [] = some ([], []) ∧
    insert_docstrings_to_source (some tree) source [] = some source ∧
    joinAll (splitLinesKE source) = source := by
  have hplan : collectPlan tree [] = some ([], []) := by
    have : gatherModule tree [] = ([], []) := by
      simp [gatherModule, List.lookup]
    simp [collectPlan, this, foldl_funcStep_empty_map]
  refine ⟨hplan, ?_, joinAll_splitLinesKE source⟩
  simp [insert_docstrings_to_source, hplan, sortDesc, joinOpt_map_some,
    joinAll_splitLinesKE]

/-- C10: on the empty source text, any docstring map whose
`"__module__"` entry is `d` makes the injector return exactly
`clean_docstring d 0`: the insertion at index 0 into the empty line
buffer succeeds, nothing is deleted, and the formatted module block is
the whole result. -/
theorem empty_source_module_docstring (docstring_map : DocMap) (d : PyStr)
    (h : List.lookup modKey docstring_map = some d) :
    insert_docstrings_to_source (some ⟨[]⟩) [] docstring_map =
      some (clean_docstring d 0) := by
  have hplan : collectPlan ⟨[]⟩ docstring_map =
      some ([], [(0, clean_docstring d 0)]) := by
    simp [collectPlan, gatherModule, h, walk, walkFuel, stmtsSize]
  simp [insert_docstrings_to_source, hplan, splitLinesKE, sortDesc,
    insertDesc, insStep, insertAt, joinOpt, joinAll, delStep]

/-- Witness for C10 at the concrete map `{"__module__": "A docstring."}`. -/
theorem empty_source_module_docstring_witness :
    List.lookup modKey [(modKey, "A docstring.".toList)] =
        some ("A docstring.".toList) ∧
    insert_docstrings_to_source (some ⟨[]⟩) []
        [(modKey, "A docstring.".toList)] =
      some (clean_docstring ("A docstring.".toList) 0) :=
  ⟨by decide, empty_source_module_docstring _ _ (by decide)⟩


/-- C7 (amended): `clean_docstring` is total, its output always ends with
the closing delimiter followed by exactly one newline, and on raw text
that trims to nothing the output is the opening delimiter line, one blank
line, and the closing delimiter line. -/
theorem trailing_newline_and_empty_block (raw_text : PyStr) (indent_level : Nat) :
    (∃ p, clean_docstring raw_text indent_level = p ++ ['"', '\n']) ∧
    (pyStrip raw_text = [] →
      clean_docstring raw_text indent_level =
        List.replicate indent_level ' ' ++ dq3 ++ '\n' :: '\n' ::
          (List.replicate indent_level ' ' ++ dq3 ++ ['\n'])) := by
  constructor
  · refine ⟨(List.replicate indent_level ' ' ++ dq3 ++ ['\n']) ++
      emitLines (List.replicate indent_level ' ')
        (splitNl (stripQuotes (pyStrip raw_text))) ++
      (List.replicate indent_level ' ' ++ ['"', '"']), ?_⟩
    simp [clean_docstring, dq3]
  · intro h
    have hsq : stripQuotes (pyStrip raw_text) = [] := by rw [h]; decide
    simp only [clean_docstring, hsq]
    simp [splitNl, emitLines, pyStrip, dq3]

/-- Witness for C7 at whitespace-only raw text and indent 1. -/
theorem trailing_newline_and_empty_block_witness :
    pyStrip ("  ".toList) = [] ∧
    clean_docstring ("  ".toList) 1 =
      List.replicate 1 ' ' ++ dq3 ++ '\n' :: '\n' ::
        (List.replicate 1 ' ' ++ dq3 ++ ['\n']) :=
  ⟨by decide, (trailing_newline_and_empty_block ("  ".toList) 1).2 (by decide)⟩

/-- Python `list.insert` within bounds splices the element in place. -/
theorem insertAt_eq_take_drop {α : Type} :
    ∀ (l : List α) (i : Nat) (a : α), i ≤ l.length →
      insertAt l i a = l.take i ++ a :: l.drop i := by
  intro l
  induction l with
  | nil =>
    intro i a h
    have : i = 0 := Nat.le_zero.mp h
    subst this
    rfl
  | cons x xs ih =>
    intro i a h
    cases i with
    | zero => rfl
    | succ i =>
      simp only [insertAt, List.take_succ_cons, List.drop_succ_cons,
        List.cons_append]
      rw [ih i a (by simpa using h)]

/-- C8: the buffer editor raises no index error: a deletion index outside
the bounds of the buffer is skipped, an insertion at any index within
`[0, length]` inclusive is performed (splicing the block as one entry at
that index), and an insertion at exactly the original length appends the
block at the end of the buffer. -/
theorem buffer_edit_bounds (buf : List (Option PyStr)) (i j : Nat) (t : PyStr)
    (hi : buf.length ≤ i) (hj : j ≤ buf.length) :
    delStep buf i = buf ∧
    insStep buf (j, t) = buf.take j ++ some t :: buf.drop j ∧
    insStep buf (buf.length, t) = buf ++ [some t] := by
  refine ⟨?_, ?_, ?_⟩
  · simp [delStep, Nat.not_lt.mpr hi]
  · simp [insStep, hj, insertAt_eq_take_drop _ _ _ hj]
  · simp [insStep, insertAt_eq_take_drop buf buf.length (some t) le_rfl]

/-- Witness for C8 on a one-line buffer, deletion index 2 (out of
bounds), insertion index 1 (= length, i.e. append position). -/
theorem buffer_edit_bounds_witness :
    (([some ['a']] : List (Option PyStr)).length ≤ 2 ∧
      1 ≤ ([some ['a']] : List (Option PyStr)).length) ∧
    (delStep [some ['a']] 2 = [some ['a']] ∧
      insStep [some ['a']] (1, ['b']) =
        ([some ['a']] : List (Option PyStr)).take 1 ++
          some ['b'] :: ([some ['a']] : List (Option PyStr)).drop 1 ∧
      insStep [some ['a']] (([some ['a']] : List (Option PyStr)).length, ['b']) =
        [some ['a']] ++ [some ['b']]) :=
  ⟨⟨by decide, by decide⟩,
    buffer_edit_bounds [some ['a']] 2 1 ['b'] (by decide) (by decide)⟩

/-- Every non-blank content line is emitted verbatim (indent-prefixed and
newline-terminated) inside the emission loop's output. -/
theorem emitLines_infix (indent : PyStr) :
    ∀ (ls : List PyStr) (line : PyStr), line ∈ ls → pyStrip line ≠ [] →
      (indent ++ line ++ ['\n']) <:+: emitLines indent ls := by
  intro ls
  induction ls with
  | nil =>
    intro line h
    exact absurd h (List.not_mem_nil line)
  | cons hd tl ih =>
    intro line hmem hne
    rcases List.mem_cons.mp hmem with h | h
    · subst h
      exact ⟨[], emitLines indent tl, by simp [emitLines, hne]⟩
    · have h1 := ih line h hne
      have h2 : emitLines indent tl <:+ emitLines indent (hd :: tl) :=
        ⟨(if pyStrip hd ≠ [] then indent ++ hd ++ ['\n'] else ['\n']), by
          simp [emitLines]⟩
      exact h1.trans h2.isInfix

/-- C9: `clean_docstring` copies each non-blank content line verbatim
(prefixed only with the indent) into the block, performing no escaping;
in particular, on the raw text `"Header\n\"\"\"\nTail"` the emitted block
contains an unescaped `\"\"\"` line strictly between the opening and
closing delimiter lines (the delimiter line occurs three times), so the
block is not a well-formed string literal. -/
theorem verbatim_lines_unescaped_delimiter :
    (∀ (raw : PyStr) (n : Nat) (line : PyStr),
        line ∈ splitNl (stripQuotes (pyStrip raw)) → pyStrip line ≠ [] →
        (List.replicate n ' ' ++ line ++ ['\n']) <:+: clean_docstring raw n) ∧
    clean_docstring ("Header\n\"\"\"\nTail".toList) 0 =
      ("\"\"\"\nHeader\n\"\"\"\nTail\n\"\"\"\n".toList) ∧
    (splitLinesKE (clean_docstring ("Header\n\"\"\"\nTail".toList) 0)).count
      ("\"\"\"\n".toList) = 3 := by
  refine ⟨?_, by decide, by decide⟩
  intro raw n line hmem hne
  have h1 := emitLines_infix (List.replicate n ' ') _ line hmem hne
  have h2 : emitLines (List.replicate n ' ')
      (splitNl (stripQuotes (pyStrip raw))) <:+: clean_docstring raw n := by
    refine ⟨List.replicate n ' ' ++ dq3 ++ ['\n'],
      List.replicate n ' ' ++ dq3 ++ ['\n'], ?_⟩
    simp [clean_docstring]
  exact h1.trans h2

/-- Witness for C9's universal part at raw text `"a\nb"`, indent 0 and
content line `"a"`. -/
theorem verbatim_lines_unescaped_delimiter_witness :
    ("a".toList ∈ splitNl (stripQuotes (pyStrip ("a\nb".toList))) ∧
      pyStrip ("a".toList) ≠ []) ∧
    (List.replicate 0 ' ' ++ "a".toList ++ ['\n']) <:+:
      clean_docstring ("a\nb".toList) 0 :=
  ⟨⟨by decide, by decide⟩,
    verbatim_lines_unescaped_delimiter.1 ("a\nb".toList) 0 ("a".toList)
      (by decide) (by decide)⟩


/-- Python `startswith` holds on any extension of the pattern itself. -/
theorem hasPre_append_self (p x : PyStr) : hasPre p (p ++ x) = true := by
  induction p with
  | nil => rfl
  | cons a p ih => simp [hasPre, ih]

/-- Stripping whitespace from a string that starts and ends with three
copies of a non-whitespace character leaves it unchanged. -/
theorem pyStrip_triple_wrap (c : Char) (r : PyStr) (hc : isPySpace c = false) :
    pyStrip ([c, c, c] ++ r ++ [c, c, c]) = [c, c, c] ++ r ++ [c, c, c] := by
  have h1 : List.dropWhile isPySpace ([c, c, c] ++ r ++ [c, c, c]) =
      [c, c, c] ++ r ++ [c, c, c] := by
    simp [List.dropWhile_cons, hc]
  have h2 : List.dropWhile isPySpace (([c, c, c] ++ r ++ [c, c, c]).reverse) =
      ([c, c, c] ++ r ++ [c, c, c]).reverse := by
    simp [List.reverse_append, List.dropWhile_cons, hc]
  simp only [pyStrip]
  rw [h1, h2, List.reverse_reverse]

/-- The slice `[3:-3]` of a string wrapped in two three-character
delimiters recovers the wrapped text. -/
theorem slice3_triple_wrap (c : Char) (r : PyStr) :
    slice3 ([c, c, c] ++ r ++ [c, c, c]) = r := by
  simp only [slice3]
  have hlen : ([c, c, c] ++ r ++ [c, c, c]).length - 6 = r.length := by
    simp
  have hd : ([c, c, c] ++ r ++ [c, c, c]).drop 3 = r ++ [c, c, c] := by
    rw [List.append_assoc]
    have h3 : (3 : Nat) = ([c, c, c] : PyStr).length := rfl
    rw [h3, List.drop_left]
  rw [hlen, hd, List.take_left]

/-- Python `endswith` holds on a string that ends with the pattern. -/
theorem hasSuf_triple_wrap (c : Char) (r : PyStr) :
    hasSuf [c, c, c] ([c, c, c] ++ r ++ [c, c, c]) = true := by
  simp only [hasSuf]
  rw [List.reverse_append]
  exact hasPre_append_self _ _

/-- The quote-stripping step on a text wrapped in the double-quote style
delimiter strips that one layer and re-trims. -/
theorem stripQuotes_dq3_wrap (r : PyStr) :
    stripQuotes (dq3 ++ r ++ dq3) = pyStrip r := by
  have h1 : hasPre dq3 (dq3 ++ r ++ dq3) = true := by
    rw [List.append_assoc]
    exact hasPre_append_self _ _
  have h2 : hasSuf dq3 (dq3 ++ r ++ dq3) = true := hasSuf_triple_wrap '"' r
  have h3 : (6 : Nat) ≤ (dq3 ++ r ++ dq3).length := by
    simp [dq3]
  have hs : slice3 (dq3 ++ r ++ dq3) = r := slice3_triple_wrap '"' r
  have h2' : hasSuf dq3 (dq3 ++ (r ++ dq3)) = true := by
    rw [← List.append_assoc]; exact h2
  simp only [stripQuotes]
  rw [if_pos, hs]
  simp only [Bool.and_eq_true, decide_eq_true_eq, List.append_assoc,
    List.length_append]
  refine ⟨⟨hasPre_append_self _ _, h2'⟩, by simp [dq3, sq3]; omega⟩

/-- The quote-stripping step on a text wrapped in the single-quote style
delimiter strips that one layer and re-trims. -/
theorem stripQuotes_sq3_wrap (r : PyStr) :
    stripQuotes (sq3 ++ r ++ sq3) = pyStrip r := by
  have h0 : hasPre dq3 (sq3 ++ r ++ sq3) = false := by
    simp [hasPre, dq3, sq3]
  have h1 : hasPre sq3 (sq3 ++ r ++ sq3) = true := by
    rw [List.append_assoc]
    exact hasPre_append_self _ _
  have h2 : hasSuf sq3 (sq3 ++ r ++ sq3) = true := hasSuf_triple_wrap '\'' r
  have h3 : (6 : Nat) ≤ (sq3 ++ r ++ sq3).length := by
    simp [sq3]
  have hs : slice3 (sq3 ++ r ++ sq3) = r := slice3_triple_wrap '\'' r
  have h0' : hasPre dq3 (sq3 ++ (r ++ sq3)) = false := by
    rw [← List.append_assoc]; exact h0
  have h2' : hasSuf sq3 (sq3 ++ (r ++ sq3)) = true := by
    rw [← List.append_assoc]; exact h2
  simp only [stripQuotes]
  rw [if_neg, if_pos, hs]
  · simp only [Bool.and_eq_true, decide_eq_true_eq, List.append_assoc,
      List.length_append]
    refine ⟨⟨hasPre_append_self _ _, h2'⟩, by simp [dq3, sq3]; omega⟩
  · simp only [Bool.and_eq_true, decide_eq_true_eq, List.append_assoc]
    intro hcon
    rw [h0'] at hcon
    exact absurd hcon.1 (by simp)

/-- C5 (amended): wrapping the raw text in a matching triple-quote
delimiter — of either style — does not change the formatted block,
provided the trimmed raw text is not itself delimiter-wrapped (when it
is, the inner layer survives in one case and is stripped in the other,
see the counterexample). -/
theorem quote_strip_idem_of_unwrapped (r : PyStr) (n : Nat)
    (h : isWrapped (pyStrip r) = false) :
    clean_docstring (dq3 ++ r ++ dq3) n = clean_docstring r n ∧
    clean_docstring (sq3 ++ r ++ sq3) n = clean_docstring r n := by
  rw [isWrapped, Bool.or_eq_false_iff] at h
  obtain ⟨hq, hs⟩ := h
  have hnw : stripQuotes (pyStrip r) = pyStrip r := by
    simp only [stripQuotes]
    rw [if_neg, if_neg]
    · simp [hs]
    · simp [hq]
  have hwd : pyStrip (dq3 ++ r ++ dq3) = dq3 ++ r ++ dq3 := by
    simpa [dq3] using pyStrip_triple_wrap '"' r (by decide)
  have hws : pyStrip (sq3 ++ r ++ sq3) = sq3 ++ r ++ sq3 := by
    simpa [sq3] using pyStrip_triple_wrap '\'' r (by decide)
  constructor
  · have hc : stripQuotes (pyStrip (dq3 ++ r ++ dq3)) =
        stripQuotes (pyStrip r) := by
      rw [hwd, stripQuotes_dq3_wrap, hnw]
    simp only [clean_docstring, hc]
  · have hc : stripQuotes (pyStrip (sq3 ++ r ++ sq3)) =
        stripQuotes (pyStrip r) := by
      rw [hws, stripQuotes_sq3_wrap, hnw]
    simp only [clean_docstring, hc]

/-- Witness for C5 at the unwrapped raw text `"hello world"`, indent 2. -/
theorem quote_strip_idem_of_unwrapped_witness :
    isWrapped (pyStrip ("hello world".toList)) = false ∧
    (clean_docstring (dq3 ++ "hello world".toList ++ dq3) 2 =
        clean_docstring ("hello world".toList) 2 ∧
      clean_docstring (sq3 ++ "hello world".toList ++ sq3) 2 =
        clean_docstring ("hello world".toList) 2) :=
  ⟨by decide, quote_strip_idem_of_unwrapped ("hello world".toList) 2 (by decide)⟩


/-- Every statement subtree has at least one node. -/
theorem stmtSize_pos (s : PyStmt) : 1 ≤ stmtSize s := by
  cases s <;> simp [stmtSize]

/-- Node count is additive on forest concatenation. -/
theorem stmtsSize_append (a b : List PyStmt) :
    stmtsSize (a ++ b) = stmtsSize a + stmtsSize b := by
  induction a with
  | nil => simp [stmtsSize]
  | cons s a ih => simp [stmtsSize, ih]; omega

/-- A statement strictly dominates its children in node count. -/
theorem stmtsSize_children_lt (s : PyStmt) :
    stmtsSize (stmtChildren s) < stmtSize s := by
  cases s <;> simp [stmtChildren, stmtSize, stmtsSize]

/-- A member of a forest contributes its whole size. -/
theorem stmtSize_le_of_mem {s : PyStmt} :
    ∀ {q : List PyStmt}, s ∈ q → stmtSize s ≤ stmtsSize q := by
  intro q
  induction q with
  | nil =>
    intro h
    exact absurd h (List.not_mem_nil s)
  | cons t rest ih =>
    intro h
    rcases List.mem_cons.mp h with h | h
    · subst h
      simp [stmtsSize]
    · have := ih h
      simp [stmtsSize]
      omega

/-- A forest containing a node anywhere is nonempty in node count. -/
theorem one_le_stmtsSize_of_inTree {s : PyStmt} :
    ∀ {q : List PyStmt}, InTree s q → 1 ≤ stmtsSize q := by
  intro q h
  cases h with
  | here hmem => exact le_trans (stmtSize_pos s) (stmtSize_le_of_mem hmem)
  | deeper t hmem _ => exact le_trans (stmtSize_pos t) (stmtSize_le_of_mem hmem)

/-- Containment is monotone under queue extension. -/
theorem inTree_mono {s : PyStmt} {q q' : List PyStmt}
    (hsub : ∀ x ∈ q, x ∈ q') (h : InTree s q) : InTree s q' := by
  cases h with
  | here hmem => exact InTree.here (hsub _ hmem)
  | deeper t hmem hin => exact InTree.deeper t (hsub _ hmem) hin

/-- The fueled breadth-first traversal reaches every node of the tree as
long as the fuel covers the total node count. -/
theorem inTree_mem_walkFuel :
    ∀ (fuel : Nat) (q : List PyStmt) (s : PyStmt),
      InTree s q → stmtsSize q ≤ fuel → s ∈ walkFuel fuel q := by
  intro fuel
  induction fuel with
  | zero =>
    intro q s hin hsz
    have := one_le_stmtsSize_of_inTree hin
    omega
  | succ n ih =>
    intro q s hin hsz
    cases q with
    | nil =>
      cases hin with
      | here hmem => exact absurd hmem (List.not_mem_nil s)
      | deeper t hmem _ => exact absurd hmem (List.not_mem_nil t)
    | cons t rest =>
      have hq : stmtsSize (rest ++ stmtChildren t) ≤ n := by
        rw [stmtsSize_append]
        have h1 := stmtsSize_children_lt t
        simp [stmtsSize] at hsz
        omega
      simp only [walkFuel]
      cases hin with
      | here hmem =>
        rcases List.mem_cons.mp hmem with h | h
        · subst h
          exact List.mem_cons_self _ _
        · refine List.mem_cons_of_mem _ (ih _ s (InTree.here ?_) hq)
          exact List.mem_append_left _ h
      | deeper u hmem hin2 =>
        rcases List.mem_cons.mp hmem with h | h
        · subst h
          refine List.mem_cons_of_mem _ (ih _ s ?_ hq)
          exact inTree_mono (fun x hx => List.mem_append_right _ hx) hin2
        · refine List.mem_cons_of_mem _ (ih _ s ?_ hq)
          exact InTree.deeper u (List.mem_append_left _ h) hin2

/-- The traversal `walk` visits every node contained anywhere in the queue's trees. -/
theorem inTree_mem_walk {s : PyStmt} {q : List PyStmt} (h : InTree s q) :
    s ∈ walk q := inTree_mem_walkFuel (stmtsSize q) q s h le_rfl

/-- A failed accumulator is absorbing for the function loop. -/
theorem foldl_funcStep_none (m : DocMap) (l : List PyStmt) :
    l.foldl (funcStep m) none = none := by
  induction l with
  | nil => rfl
  | cons s l ih =>
    rw [List.foldl_cons, show funcStep m none s = none from rfl]
    exact ih

/-- The function loop only ever appends to the deletion and insertion
lists: whatever is in the accumulator stays in the result. -/
theorem foldl_funcStep_mono (m : DocMap) :
    ∀ (l : List PyStmt) (dels ins dels' ins' : _),
      l.foldl (funcStep m) (some (dels, ins)) = some (dels', ins') →
      (∀ j ∈ dels, j ∈ dels') ∧ (∀ x ∈ ins, x ∈ ins') := by
  intro l
  induction l with
  | nil =>
    intro dels ins dels' ins' h
    obtain ⟨h1, h2⟩ : dels = dels' ∧ ins = ins' := by simpa using h
    subst h1; subst h2
    exact ⟨fun _ h => h, fun _ h => h⟩
  | cons s l ih =>
    intro dels ins dels' ins' h
    rw [List.foldl_cons] at h
    cases s with
    | functionDef name col body pos =>
      cases hlook : List.lookup name m with
      | none =>
        rw [show funcStep m (some (dels, ins))
            (PyStmt.functionDef name col body pos) = some (dels, ins) from by
          simp only [funcStep, hlook]] at h
        exact ih dels ins dels' ins' h
      | some d =>
        cases body with
        | nil =>
          rw [show funcStep m (some (dels, ins))
              (PyStmt.functionDef name col [] pos) = none from by
            simp only [funcStep, hlook]] at h
          rw [foldl_funcStep_none] at h
          exact absurd h (by simp)
        | cons first rest =>
          rw [show funcStep m (some (dels, ins))
              (PyStmt.functionDef name col (first :: rest) pos) =
              some (dels ++
                (match first with
                 | PyStmt.expr (PyExpr.constant _) p => delRange p
                 | _ => []),
                ins ++ [((stmtPos first).lineno - 1,
                  clean_docstring d (col + 4))]) from by
            simp only [funcStep, hlook]
            cases first <;> try rfl
            rename_i v p2
            cases v <;> rfl] at h
          have hm := ih _ _ _ _ h
          exact ⟨fun j hj => hm.1 j (List.mem_append_left _ hj),
                 fun x hx => hm.2 x (List.mem_append_left _ hx)⟩
    | expr v pos =>
      rw [show funcStep m (some (dels, ins)) (PyStmt.expr v pos) =
          some (dels, ins) from rfl] at h
      exact ih dels ins dels' ins' h
    | asyncFunctionDef name col body pos =>
      rw [show funcStep m (some (dels, ins))
          (PyStmt.asyncFunctionDef name col body pos) =
          some (dels, ins) from rfl] at h
      exact ih dels ins dels' ins' h
    | classDef name col body pos =>
      rw [show funcStep m (some (dels, ins))
          (PyStmt.classDef name col body pos) = some (dels, ins) from rfl] at h
      exact ih dels ins dels' ins' h
    | other body pos =>
      rw [show funcStep m (some (dels, ins)) (PyStmt.other body pos) =
          some (dels, ins) from rfl] at h
      exact ih dels ins dels' ins' h

/-- If a matched synchronous function definition occurs in the node list,
the fold's result contains its scheduled insertion, and the deletion range
of its leading bare-constant statement (when present). -/
theorem foldl_funcStep_mem (m : DocMap) :
    ∀ (l : List PyStmt) (dels ins dels' ins' : _)
      (name : PyStr) (col : Nat) (first : PyStmt) (rest : List PyStmt)
      (pos : PyPos) (d : PyStr),
      PyStmt.functionDef name col (first :: rest) pos ∈ l →
      List.lookup name m = some d →
      l.foldl (funcStep m) (some (dels, ins)) = some (dels', ins') →
      ((stmtPos first).lineno - 1, clean_docstring d (col + 4)) ∈ ins' ∧
      (∀ b p, first = PyStmt.expr (PyExpr.constant b) p →
        ∀ j ∈ delRange p, j ∈ dels') := by
  intro l
  induction l with
  | nil =>
    intro dels ins dels' ins' name col first rest pos d hmem
    exact absurd hmem (List.not_mem_nil _)
  | cons s l ih =>
    intro dels ins dels' ins' name col first rest pos d hmem hlook h
    rw [List.foldl_cons] at h
    rcases List.mem_cons.mp hmem with heq | hmem2
    · rw [← heq] at h
      rw [show funcStep m (some (dels, ins))
          (PyStmt.functionDef name col (first :: rest) pos) =
          some (dels ++
            (match first with
             | PyStmt.expr (PyExpr.constant _) p => delRange p
             | _ => []),
            ins ++ [((stmtPos first).lineno - 1,
              clean_docstring d (col + 4))]) from by
        simp only [funcStep, hlook]
        cases first <;> try rfl
        rename_i v p2
        cases v <;> rfl] at h
      have hm := foldl_funcStep_mono m l _ _ _ _ h
      constructor
      · exact hm.2 _ (List.mem_append_right _ (List.mem_singleton.mpr rfl))
      · intro b p hfirst j hj
        subst hfirst
        exact hm.1 j (List.mem_append_right _ hj)
    · cases hstep : funcStep m (some (dels, ins)) s with
      | none =>
        rw [hstep, foldl_funcStep_none] at h
        exact absurd h (by simp)
      | some acc1 =>
        rw [hstep] at h
        exact ih acc1.1 acc1.2 dels' ins' name col first rest pos d hmem2
          hlook (by simpa using h)

/-- C2 (amended): only synchronous `ast.FunctionDef` nodes receive
docstrings.  For every parseable source and map, every function node
anywhere in the tree whose name is a key of the map has the formatted
block scheduled at the line index of its first body statement with indent
`col_offset + 4`, and the line span of a leading bare constant expression
(in particular an existing string docstring) is marked for deletion; class
definitions and async function definitions are never processed — the loop
step leaves the plan untouched on them. -/
theorem only_functiondef_receives_docstring
    (tree : PyModule) (docstring_map : DocMap)
    (dels : List Nat) (ins : List (Nat × PyStr))
    (hplan : collectPlan tree docstring_map = some (dels, ins))
    (name : PyStr) (col : Nat) (first : PyStmt) (rest : List PyStmt)
    (pos : PyPos)
    (hnode : InTree (PyStmt.functionDef name col (first :: rest) pos) tree.body)
    (d : PyStr) (hname : List.lookup name docstring_map = some d) :
    ((stmtPos first).lineno - 1, clean_docstring d (col + 4)) ∈ ins ∧
    (∀ b p, first = PyStmt.expr (PyExpr.constant b) p →
      ∀ j, p.lineno - 1 ≤ j → j < p.end_lineno → j ∈ dels) ∧
    (∀ (acc : Option (List Nat × List (Nat × PyStr))) nm c b p,
      funcStep docstring_map acc (PyStmt.classDef nm c b p) = acc ∧
      funcStep docstring_map acc (PyStmt.asyncFunctionDef nm c b p) = acc) := by
  have hmem := inTree_mem_walk hnode
  rw [collectPlan] at hplan
  have hmain := foldl_funcStep_mem docstring_map (walk tree.body)
      (gatherModule tree docstring_map).1 (gatherModule tree docstring_map).2
      dels ins name col first rest pos d hmem hname (by simpa using hplan)
  refine ⟨hmain.1, ?_, ?_⟩
  · intro b p hfirst j hj1 hj2
    refine hmain.2 b p hfirst j ?_
    simp only [delRange, List.mem_range'_1]
    omega
  · intro acc nm c b p
    cases acc with
    | none => exact ⟨rfl, rfl⟩
    | some a =>
      obtain ⟨x, y⟩ := a
      exact ⟨rfl, rfl⟩

/-- Witness for C2 (amended) on the one-function source
`"def f():\n    pass\n"` with map `{"f": "Doc."}`. -/
theorem only_functiondef_receives_docstring_witness :
    collectPlan fPassTree [("f".toList, "Doc.".toList)] =
        some ([], [(1, clean_docstring ("Doc.".toList) 4)]) ∧
    List.lookup ("f".toList) [("f".toList, "Doc.".toList)] =
        some ("Doc.".toList) ∧
    (1, clean_docstring ("Doc.".toList) 4) ∈
      [(1, clean_docstring ("Doc.".toList) 4)] :=
  ⟨by decide, by decide,
    (only_functiondef_receives_docstring fPassTree
      [("f".toList, "Doc.".toList)] []
      [(1, clean_docstring ("Doc.".toList) 4)] (by decide)
      ("f".toList) 0 (PyStmt.other [] ⟨2, 2⟩) [] ⟨1, 2⟩
      (InTree.here (List.mem_singleton.mpr rfl)) ("Doc.".toList)
      (by decide)).1⟩

end AiDocify
